import Mathlib

/-!
Verification of the neurotrack head-diagram region engine and session
store.  The TypeScript source is embedded shallowly: numbers become exact
rationals (ℚ), typed arrays become lists, and the per-vertex / per-frame
loops become structurally recursive functions.

Mathlib's arithmetic on `ℚ` is `@[irreducible]`, so the embedding is built
on a small layer of kernel-computable rational operations (`qadd`, `qsub`,
`qmul`, `qmin`, `qmax`), each proved equal to the corresponding Mathlib
operation.  Every theorem can therefore be both proved abstractly and
evaluated on concrete inputs by `decide`.
-/

/-! ## Kernel-computable rational arithmetic -/

/-- Addition on `ℚ` by cross-multiplication; equals `a + b` (`qadd_eq`). -/
def qadd (a b : ℚ) : ℚ := mkRat (a.num * b.den + b.num * a.den) (a.den * b.den)

/-- Multiplication on `ℚ`; equals `a * b` (`qmul_eq`). -/
def qmul (a b : ℚ) : ℚ := mkRat (a.num * b.num) (a.den * b.den)

/-- Subtraction on `ℚ`; equals `a - b` (`qsub_eq`). -/
def qsub (a b : ℚ) : ℚ := qadd a (-b)

/-- Minimum on `ℚ`; equals `min a b` (`qmin_eq`). -/
def qmin (a b : ℚ) : ℚ := if a ≤ b then a else b

/-- Maximum on `ℚ`; equals `max a b` (`qmax_eq`). -/
def qmax (a b : ℚ) : ℚ := if a ≤ b then b else a

theorem qadd_eq (a b : ℚ) : qadd a b = a + b := by
  have ha : ((a.den : ℚ)) ≠ 0 := by
    exact_mod_cast a.den_pos.ne'
  have hb : ((b.den : ℚ)) ≠ 0 := by
    exact_mod_cast b.den_pos.ne'
  unfold qadd
  rw [Rat.mkRat_eq_div]
  push_cast
  conv_rhs => rw [← Rat.num_div_den a, ← Rat.num_div_den b]
  rw [div_add_div _ _ ha hb]
  ring_nf

theorem qmul_eq (a b : ℚ) : qmul a b = a * b := by
  unfold qmul
  rw [Rat.mkRat_eq_div]
  push_cast
  conv_rhs => rw [← Rat.num_div_den a, ← Rat.num_div_den b]
  rw [div_mul_div_comm]

theorem qsub_eq (a b : ℚ) : qsub a b = a - b := by
  unfold qsub
  rw [qadd_eq]
  ring

theorem qmin_eq (a b : ℚ) : qmin a b = min a b := by
  unfold qmin
  split
  · exact (min_eq_left (by assumption)).symm
  · exact (min_eq_right (le_of_not_le (by assumption))).symm

theorem qmax_eq (a b : ℚ) : qmax a b = max a b := by
  unfold qmax
  split
  · exact (max_eq_right (by assumption)).symm
  · exact (max_eq_left (le_of_not_le (by assumption))).symm

/-! ## Vectors and distances -/

/-- A 3D point with exact rational coordinates (embedding of the
`THREE.Vector3` coordinate triples used by the region engine). -/
structure Vec3 where
  x : ℚ
  y : ℚ
  z : ℚ
  deriving DecidableEq

/-- The zero vector, used as the out-of-range default for list lookups. -/
def Vec3.zero : Vec3 := ⟨0, 0, 0⟩

/-- Squared Euclidean distance, from `vertexAnchorMap`:
`d2 = (vx - ax) ** 2 + (vy - ay) ** 2 + (vz - az) ** 2`.
The sibling classifier `vertexRegions` compares `v.distanceTo(anchor)`
instead; square root is strictly monotone on nonnegative reals, so the
branch taken by each comparison is identical and both classifiers are
embedded through `d2`. -/
def d2 (v a : Vec3) : ℚ :=
  qadd (qadd (qmul (qsub v.x a.x) (qsub v.x a.x)) (qmul (qsub v.y a.y) (qsub v.y a.y)))
    (qmul (qsub v.z a.z) (qsub v.z a.z))

theorem d2_eq (v a : Vec3) :
    d2 v a = (v.x - a.x) ^ 2 + (v.y - a.y) ^ 2 + (v.z - a.z) ^ 2 := by
  unfold d2
  rw [qadd_eq, qadd_eq, qmul_eq, qmul_eq, qmul_eq, qsub_eq, qsub_eq, qsub_eq]
  ring

/-! ## Vertex classifier

Embedding of the per-vertex loop of `vertexAnchorMap`:

```
let minD2 = Infinity, best = 0;
for (let a = 0; a < ALL_ANCHORS.length; a++) {
  const d2 = ...;
  if (d2 < minD2) { minD2 = d2; best = a; }
}
map[i] = best;
```

`Infinity` is realised by seeding the loop with the first anchor (the first
iteration always satisfies `d2 < Infinity`); an empty anchor list leaves
`best = 0` untouched, exactly as in the source. -/

/-- The classifier loop over the remaining anchor positions `l`, at current
anchor index `i`, with the best index and best squared distance so far. -/
def argminLoop (v : Vec3) : List Vec3 → Nat → Nat → ℚ → Nat
  | [], _, best, _ => best
  | p :: rest, i, best, m =>
    if d2 v p < m then argminLoop v rest (i + 1) i (d2 v p)
    else argminLoop v rest (i + 1) best m

theorem argminLoop_cons (v p : Vec3) (rest : List Vec3) (i best : Nat) (m : ℚ) :
    argminLoop v (p :: rest) i best m =
      if d2 v p < m then argminLoop v rest (i + 1) i (d2 v p)
      else argminLoop v rest (i + 1) best m := rfl

/-- Index of the nearest anchor to `v` (first declared wins on ties). -/
def classifyVertex (anchors : List Vec3) (v : Vec3) : Nat :=
  match anchors with
  | [] => 0
  | p :: rest => argminLoop v rest 1 0 (d2 v p)

/-- Embedding of `vertexAnchorMap`: one nearest-anchor index per vertex. -/
def vertexAnchorMap (anchors : List Vec3) (verts : List Vec3) : List Nat :=
  verts.map (classifyVertex anchors)

/-- Loop invariant proof for `argminLoop`: starting from a best index that
is optimal for the prefix of `A` before position `i`, the loop returns an
index of `A` whose squared distance is minimal over all of `A`, and which
is strictly closer than every earlier index. -/
theorem argminLoop_spec (v : Vec3) (A : List Vec3) :
    ∀ (l : List Vec3) (i best : Nat) (m : ℚ),
    A.drop i = l → best < i → best < A.length →
    m = d2 v (A.getD best Vec3.zero) →
    (∀ j, j < best → m < d2 v (A.getD j Vec3.zero)) →
    (∀ j, best ≤ j → j < i → m ≤ d2 v (A.getD j Vec3.zero)) →
    argminLoop v l i best m < A.length ∧
    (∀ j, j < A.length →
      d2 v (A.getD (argminLoop v l i best m) Vec3.zero) ≤ d2 v (A.getD j Vec3.zero)) ∧
    (∀ j, j < argminLoop v l i best m →
      d2 v (A.getD (argminLoop v l i best m) Vec3.zero) < d2 v (A.getD j Vec3.zero)) := by
  intro l
  induction l with
  | nil =>
    intro i best m hdrop hbi hbA hm hstrict hle
    have hiA : A.length ≤ i := List.drop_eq_nil_iff.mp hdrop
    refine ⟨hbA, ?_, ?_⟩
    · intro j hj
      rcases lt_or_le j best with h | h
      · exact le_of_lt (hm ▸ hstrict j h)
      · exact hm ▸ hle j h (lt_of_lt_of_le hj hiA)
    · intro j hj
      exact hm ▸ hstrict j hj
  | cons p rest ih =>
    intro i best m hdrop hbi hbA hm hstrict hle
    subst hm
    have hiA : i < A.length := by
      by_contra hc
      have : A.drop i = [] := List.drop_eq_nil_iff.mpr (le_of_not_lt hc)
      rw [this] at hdrop
      exact List.noConfusion hdrop
    have hp : A.getD i Vec3.zero = p := by
      have h0 : (A.drop i)[0]? = some p := by rw [hdrop]; simp
      have h1 : A[i]? = some p := by
        have := List.getElem?_drop A i 0
        rw [h0] at this
        simpa using this.symm
      rw [List.getD_eq_getElem?_getD, h1]
      rfl
    have hrest : A.drop (i + 1) = rest := by
      have h2 : A.drop (i + 1) = (A.drop i).drop 1 := by
        rw [List.drop_drop]
      rw [h2, hdrop]
      rfl
    rw [argminLoop_cons]
    by_cases hlt : d2 v p < d2 v (A.getD best Vec3.zero)
    · -- new best found at index i
      rw [if_pos hlt]
      refine ih (i + 1) i (d2 v p) hrest (Nat.lt_succ_self i) hiA (by rw [hp]) ?_ ?_
      · intro j hj
        rcases lt_or_le j best with h | h
        · exact lt_trans hlt (hstrict j h)
        · exact lt_of_lt_of_le hlt (hle j h hj)
      · intro j hij hji
        have hj : j = i := le_antisymm (Nat.lt_succ_iff.mp hji) hij
        rw [hj, hp]
    · -- keep old best
      rw [if_neg hlt]
      refine ih (i + 1) best _ hrest (Nat.lt_succ_of_lt hbi) hbA rfl hstrict ?_
      intro j hbj hji
      rcases Nat.lt_succ_iff_lt_or_eq.mp hji with h | h
      · exact hle j hbj h
      · rw [h, hp]
        exact le_of_not_lt hlt

/-- The classifier picks a valid anchor index that minimises the squared
distance, strictly beating every earlier-declared anchor. -/
theorem classifyVertex_spec (anchors : List Vec3) (v : Vec3) (hne : anchors ≠ []) :
    classifyVertex anchors v < anchors.length ∧
    (∀ j, j < anchors.length →
      d2 v (anchors.getD (classifyVertex anchors v) Vec3.zero) ≤
        d2 v (anchors.getD j Vec3.zero)) ∧
    (∀ j, j < classifyVertex anchors v →
      d2 v (anchors.getD (classifyVertex anchors v) Vec3.zero) <
        d2 v (anchors.getD j Vec3.zero)) := by
  match anchors with
  | [] => exact absurd rfl hne
  | p :: rest =>
    have h := argminLoop_spec v (p :: rest) rest 1 0 (d2 v p)
      (by rfl) Nat.zero_lt_one (by simp) (by rfl)
      (fun j hj => absurd hj (Nat.not_lt_zero j))
      (fun j h0 h1 => by
        have : j = 0 := Nat.lt_one_iff.mp h1
        rw [this]
        rfl)
    exact h

/-- C1: for every mesh vertex, the classifier assigns the index of the
anchor (in declaration order) whose Euclidean distance to the vertex is
minimal; on ties the first-declared anchor wins, i.e. the chosen anchor is
strictly closer than every anchor declared before it.  Distances are
compared through their squares (`d2`), which orders anchors identically. -/
theorem vertexAnchorMap_nearest (anchors verts : List Vec3) (hne : anchors ≠ [])
    (k : Nat) (hk : k < verts.length) :
    (vertexAnchorMap anchors verts).getD k 0 < anchors.length ∧
    (∀ j, j < anchors.length →
      d2 (verts.getD k Vec3.zero)
          (anchors.getD ((vertexAnchorMap anchors verts).getD k 0) Vec3.zero) ≤
        d2 (verts.getD k Vec3.zero) (anchors.getD j Vec3.zero)) ∧
    (∀ j, j < (vertexAnchorMap anchors verts).getD k 0 →
      d2 (verts.getD k Vec3.zero)
          (anchors.getD ((vertexAnchorMap anchors verts).getD k 0) Vec3.zero) <
        d2 (verts.getD k Vec3.zero) (anchors.getD j Vec3.zero)) := by
  have hmap : (vertexAnchorMap anchors verts).getD k 0 =
      classifyVertex anchors (verts.getD k Vec3.zero) := by
    unfold vertexAnchorMap
    rw [List.getD_eq_getElem?_getD, List.getElem?_map, List.getElem?_eq_getElem hk,
      List.getD_eq_getElem?_getD, List.getElem?_eq_getElem hk]
    rfl
  rw [hmap]
  exact classifyVertex_spec anchors (verts.getD k Vec3.zero) hne

/-- Witness for C1 at the spec's own scenario: anchors at (0,0,1) and
(0,0,-1), a vertex at (0,0,0.9); the vertex classifies to anchor 0. -/
theorem vertexAnchorMap_nearest_witness :
    ([⟨0, 0, 1⟩, ⟨0, 0, -1⟩] : List Vec3) ≠ [] ∧
    0 < ([(⟨0, 0, mkRat 9 10⟩ : Vec3)]).length ∧
    ((vertexAnchorMap [⟨0, 0, 1⟩, ⟨0, 0, -1⟩] [⟨0, 0, mkRat 9 10⟩]).getD 0 0 < 2 ∧
      (∀ j, j < 2 →
        d2 (([(⟨0, 0, mkRat 9 10⟩ : Vec3)]).getD 0 Vec3.zero)
            (([⟨0, 0, 1⟩, ⟨0, 0, -1⟩] : List Vec3).getD
              ((vertexAnchorMap [⟨0, 0, 1⟩, ⟨0, 0, -1⟩] [⟨0, 0, mkRat 9 10⟩]).getD 0 0)
              Vec3.zero) ≤
          d2 (([(⟨0, 0, mkRat 9 10⟩ : Vec3)]).getD 0 Vec3.zero)
            (([⟨0, 0, 1⟩, ⟨0, 0, -1⟩] : List Vec3).getD j Vec3.zero)) ∧
      (∀ j, j < (vertexAnchorMap [⟨0, 0, 1⟩, ⟨0, 0, -1⟩] [⟨0, 0, mkRat 9 10⟩]).getD 0 0 →
        d2 (([(⟨0, 0, mkRat 9 10⟩ : Vec3)]).getD 0 Vec3.zero)
            (([⟨0, 0, 1⟩, ⟨0, 0, -1⟩] : List Vec3).getD
              ((vertexAnchorMap [⟨0, 0, 1⟩, ⟨0, 0, -1⟩] [⟨0, 0, mkRat 9 10⟩]).getD 0 0)
              Vec3.zero) <
          d2 (([(⟨0, 0, mkRat 9 10⟩ : Vec3)]).getD 0 Vec3.zero)
            (([⟨0, 0, 1⟩, ⟨0, 0, -1⟩] : List Vec3).getD j Vec3.zero))) :=
  ⟨by decide, by decide,
    vertexAnchorMap_nearest [⟨0, 0, 1⟩, ⟨0, 0, -1⟩] [⟨0, 0, mkRat 9 10⟩]
      (by decide) 0 (by decide)⟩

/-- C8 counterexample: the classifier never rejects its input.  Run on an
empty anchor list it still produces a full-length classification map
(assigning the initial index 0 to the vertex), and on a zero-vertex mesh it
produces the empty map; there is no fail-fast path in `vertexAnchorMap`. -/
theorem vertexAnchorMap_no_failfast_counterexample :
    vertexAnchorMap [] [Vec3.zero] = [0] ∧
    (vertexAnchorMap [] [Vec3.zero]).length = 1 ∧
    vertexAnchorMap [⟨0, 0, 1⟩] [] = [] := by
  decide

/-- C8 (amended): the classifier is a total function and never rejects its
input.  Its output always has one entry per vertex; for a non-empty anchor
list every entry is a valid anchor index; a zero-vertex mesh yields the
empty map, and an empty anchor list yields the untouched initial index 0
for every vertex. -/
theorem vertexAnchorMap_total (anchors verts : List Vec3) :
    (vertexAnchorMap anchors verts).length = verts.length ∧
    (anchors ≠ [] → ∀ r ∈ vertexAnchorMap anchors verts, r < anchors.length) ∧
    (verts = [] → vertexAnchorMap anchors verts = []) ∧
    (anchors = [] → vertexAnchorMap anchors verts = List.replicate verts.length 0) := by
  refine ⟨List.length_map verts (classifyVertex anchors), ?_, ?_, ?_⟩
  · intro hne r hr
    rcases List.mem_map.mp hr with ⟨v, _, hv⟩
    exact hv ▸ (classifyVertex_spec anchors v hne).1
  · intro hv
    rw [hv]
    rfl
  · intro ha
    rw [ha]
    unfold vertexAnchorMap classifyVertex
    induction verts with
    | nil => rfl
    | cons v vs ihv =>
      simp only [List.map_cons, List.length_cons, List.replicate_succ, ihv]

/-- Witness for C8's amended theorem: with one anchor and one vertex, every
produced index is in range. -/
theorem vertexAnchorMap_total_witness :
    ([(⟨0, 0, 1⟩ : Vec3)] : List Vec3) ≠ [] ∧
    (∀ r ∈ vertexAnchorMap [⟨0, 0, 1⟩] [Vec3.zero], r < 1) :=
  ⟨by decide, (vertexAnchorMap_total [⟨0, 0, 1⟩] [Vec3.zero]).2.1 (by decide)⟩

/-! ## Camera-visibility engine

Embedding of the per-region body of the `useFrame` loop:

```
const dot = _camDir.dot(REGION_FACING[ri]);
const visibility = Math.max(0, Math.min(1, dot / 0.25));
if (visibility === 0) { mat.visible = false; continue; }
mat.visible = true;
const baseOpacity = isSelected ? (isHovered ? 0.75 : 0.60)
                  : isHovered ? 0.40 : 0.10;
mat.opacity = baseOpacity * visibility;
```

Division by the constant `0.25` is embedded as multiplication by `4`
(exact: `x / (1/4) = 4 * x`); the decimal constants are embedded as the
equal exact rationals (`mkRat 1 4 = 0.25` is proved as part of the C2
theorem, and the opacity table values as part of the C3 theorem). -/

/-- The visibility ramp `Math.max(0, Math.min(1, dot / 0.25))`. -/
def visibility (dot : ℚ) : ℚ := qmax 0 (qmin 1 (qmul dot 4))

/-- Restatement of `visibility` with Mathlib operations and the literal
division by 0.25. -/
theorem visibility_eq (dot : ℚ) : visibility dot = max 0 (min 1 (dot / (0.25 : ℚ))) := by
  unfold visibility
  rw [qmax_eq, qmin_eq, qmul_eq]
  norm_num
  rw [div_eq_mul_inv]
  norm_num [mul_comm]

/-- The base opacity table keyed by (selected?, hovered?). -/
def baseOpacity (isSelected isHovered : Bool) : ℚ :=
  if isSelected then (if isHovered then mkRat 3 4 else mkRat 3 5)
  else if isHovered then mkRat 2 5 else mkRat 1 10

/-- Render state of one region's overlay material. -/
structure MatState where
  visible : Bool
  opacity : ℚ
  deriving DecidableEq

/-- One region's frame update: if the visibility is zero the overlay is
hidden (its previous opacity is left untouched by the `continue`);
otherwise it is shown with opacity `baseOpacity * visibility`. -/
def frameUpdate (prev : MatState) (dot : ℚ) (isSelected isHovered : Bool) : MatState :=
  if visibility dot = 0 then { prev with visible := false }
  else { visible := true, opacity := qmul (baseOpacity isSelected isHovered) (visibility dot) }

/-- C2: the per-frame visibility score is `clamp(dot / 0.25, 0, 1)` with
dead-band 0.25 (= 1/4): it is non-decreasing in the dot product, equals 0
for `dot ≤ 0`, equals 1 for `dot ≥ 0.25`, and whenever it equals 0 the
region's overlay is hidden regardless of selection and hover state. -/
theorem visibility_ramp :
    (mkRat 1 4 : ℚ) = 0.25 ∧
    (∀ a b : ℚ, a ≤ b → visibility a ≤ visibility b) ∧
    (∀ dot : ℚ, dot ≤ 0 → visibility dot = 0) ∧
    (∀ dot : ℚ, mkRat 1 4 ≤ dot → visibility dot = 1) ∧
    (∀ (prev : MatState) (dot : ℚ) (isSelected isHovered : Bool),
      visibility dot = 0 →
      (frameUpdate prev dot isSelected isHovered).visible = false) := by
  refine ⟨by norm_num [Rat.mkRat_eq_div], ?_, ?_, ?_, ?_⟩
  · intro a b hab
    simp only [visibility, qmax_eq, qmin_eq, qmul_eq]
    have h4 : a * 4 ≤ b * 4 := by linarith
    exact max_le_max le_rfl (min_le_min le_rfl h4)
  · intro dot hdot
    simp only [visibility, qmax_eq, qmin_eq, qmul_eq]
    have h1 : dot * 4 ≤ 0 := by linarith
    have h2 : min 1 (dot * 4) ≤ 0 := le_trans (min_le_right _ _) h1
    exact max_eq_left h2
  · intro dot hdot
    rw [Rat.mkRat_eq_div] at hdot
    simp only [visibility, qmax_eq, qmin_eq, qmul_eq]
    have h1 : (1 : ℚ) ≤ dot * 4 := by linarith
    rw [min_eq_left h1]
    exact max_eq_right zero_le_one
  · intro prev dot isSelected isHovered h
    simp [frameUpdate, h]

/-- Witness for C2 at dot values -1 (hidden), 1/2 (full) and a frame update
at dot -1 that hides a previously visible selected+hovered overlay. -/
theorem visibility_ramp_witness :
    ((-1 : ℚ) ≤ 1 ∧ visibility (-1) ≤ visibility 1) ∧
    ((-1 : ℚ) ≤ 0 ∧ visibility (-1) = 0) ∧
    ((mkRat 1 4 : ℚ) ≤ mkRat 1 2 ∧ visibility (mkRat 1 2) = 1) ∧
    (visibility (-1) = 0 ∧
      (frameUpdate ⟨true, mkRat 1 10⟩ (-1) true true).visible = false) :=
  ⟨⟨by decide, visibility_ramp.2.1 (-1) 1 (by decide)⟩,
   ⟨by decide, visibility_ramp.2.2.1 (-1) (by decide)⟩,
   ⟨by decide, visibility_ramp.2.2.2.1 (mkRat 1 2) (by decide)⟩,
   ⟨by decide, visibility_ramp.2.2.2.2 ⟨true, mkRat 1 10⟩ (-1) true true (by decide)⟩⟩

/-- C3: at any positive visibility the shown overlay's opacity is
`baseOpacity * visibility` with the fixed table 0.75 / 0.60 / 0.40 / 0.10,
and the four (selected, hovered) combinations are strictly ordered:
selected+hovered > selected > hovered > idle at equal visibility. -/
theorem opacity_table_ordering :
    (baseOpacity true true = 0.75 ∧ baseOpacity true false = 0.60 ∧
      baseOpacity false true = 0.40 ∧ baseOpacity false false = 0.10) ∧
    (∀ (prev : MatState) (dot : ℚ) (isSelected isHovered : Bool),
      0 < visibility dot →
      (frameUpdate prev dot isSelected isHovered).opacity =
        baseOpacity isSelected isHovered * visibility dot) ∧
    (∀ (prev : MatState) (dot : ℚ), 0 < visibility dot →
      (frameUpdate prev dot false false).opacity <
        (frameUpdate prev dot false true).opacity ∧
      (frameUpdate prev dot false true).opacity <
        (frameUpdate prev dot true false).opacity ∧
      (frameUpdate prev dot true false).opacity <
        (frameUpdate prev dot true true).opacity) := by
  have htab : baseOpacity true true = 0.75 ∧ baseOpacity true false = 0.60 ∧
      baseOpacity false true = 0.40 ∧ baseOpacity false false = 0.10 := by
    refine ⟨?_, ?_, ?_, ?_⟩ <;> norm_num [baseOpacity, Rat.mkRat_eq_div]
  have hop : ∀ (prev : MatState) (dot : ℚ) (isSelected isHovered : Bool),
      0 < visibility dot →
      (frameUpdate prev dot isSelected isHovered).opacity =
        baseOpacity isSelected isHovered * visibility dot := by
    intro prev dot isSelected isHovered h
    rw [frameUpdate, if_neg (ne_of_gt h), qmul_eq]
  refine ⟨htab, hop, ?_⟩
  intro prev dot h
  rw [hop prev dot false false h, hop prev dot false true h,
    hop prev dot true false h, hop prev dot true true h,
    htab.1, htab.2.1, htab.2.2.1, htab.2.2.2]
  refine ⟨?_, ?_, ?_⟩ <;> [skip; skip; skip] <;>
    exact mul_lt_mul_of_pos_right (by norm_num) h

/-- Witness for C3 at dot 1 (visibility 1): 0.10 < 0.40 < 0.60 < 0.75. -/
theorem opacity_table_ordering_witness :
    (0 : ℚ) < visibility 1 ∧
    ((frameUpdate ⟨false, 0⟩ 1 true true).opacity =
      baseOpacity true true * visibility 1) ∧
    ((frameUpdate ⟨false, 0⟩ 1 false false).opacity <
        (frameUpdate ⟨false, 0⟩ 1 false true).opacity ∧
      (frameUpdate ⟨false, 0⟩ 1 false true).opacity <
        (frameUpdate ⟨false, 0⟩ 1 true false).opacity ∧
      (frameUpdate ⟨false, 0⟩ 1 true false).opacity <
        (frameUpdate ⟨false, 0⟩ 1 true true).opacity) :=
  ⟨by decide,
   opacity_table_ordering.2.1 ⟨false, 0⟩ 1 true true (by decide),
   opacity_table_ordering.2.2 ⟨false, 0⟩ 1 (by decide)⟩

/-! ## Boundary and sub-geometry builder -/

/-- A triangle of the index buffer: the three vertex indices read at
`index.getX(i)`, `index.getX(i+1)`, `index.getX(i+2)`. -/
structure Tri where
  a : Nat
  b : Nat
  c : Nat
  deriving DecidableEq

/-- The `score` of `buildRegionGeo`: how many of the triangle's three
vertices classify to `targetIdx`. -/
def triScore (vmap : List Nat) (targetIdx : Nat) (t : Tri) : Nat :=
  (if vmap.getD t.a 0 = targetIdx then 1 else 0) +
    (if vmap.getD t.b 0 = targetIdx then 1 else 0) +
    (if vmap.getD t.c 0 = targetIdx then 1 else 0)

/-- The triangles kept for region `targetIdx`'s sub-geometry by
`buildRegionGeo`'s majority filter `score >= 2`.  (The subsequent local
reindexing of the kept triangles' vertices is omitted: the claims concern
which triangles belong to which sub-geometry.) -/
def buildRegionGeo (vmap : List Nat) (targetIdx : Nat) (tris : List Tri) : List Tri :=
  tris.filter (fun t => 2 ≤ triScore vmap targetIdx t)

/-- Two different target indices cannot both score a majority: the two
scores of any triangle sum to at most 3. -/
theorem triScore_add_le (vmap : List Nat) (t : Tri) (r s : Nat) (hrs : r ≠ s) :
    triScore vmap r t + triScore vmap s t ≤ 3 := by
  unfold triScore
  split_ifs <;> omega

/-- A triangle whose three classifications are pairwise distinct scores at
most 1 for every target. -/
theorem triScore_le_one_of_distinct (vmap : List Nat) (t : Tri) (r : Nat)
    (hab : vmap.getD t.a 0 ≠ vmap.getD t.b 0)
    (hbc : vmap.getD t.b 0 ≠ vmap.getD t.c 0)
    (hac : vmap.getD t.a 0 ≠ vmap.getD t.c 0) :
    triScore vmap r t ≤ 1 := by
  unfold triScore
  split_ifs <;> omega

/-- C4: a triangle is in region `r`'s sub-geometry iff at least 2 of its 3
vertices classify to `r`; a triangle with such a majority for `r` is in no
other region's sub-geometry (so it appears in exactly one); and a triangle
whose three vertices classify to three different anchors (1-1-1 split)
appears in no sub-geometry at all. -/
theorem buildRegionGeo_majority (vmap : List Nat) (tris : List Tri) (t : Tri)
    (ht : t ∈ tris) :
    (∀ r, t ∈ buildRegionGeo vmap r tris ↔ 2 ≤ triScore vmap r t) ∧
    (∀ r, 2 ≤ triScore vmap r t →
      t ∈ buildRegionGeo vmap r tris ∧
      ∀ s, s ≠ r → t ∉ buildRegionGeo vmap s tris) ∧
    ((vmap.getD t.a 0 ≠ vmap.getD t.b 0 ∧ vmap.getD t.b 0 ≠ vmap.getD t.c 0 ∧
        vmap.getD t.a 0 ≠ vmap.getD t.c 0) →
      ∀ r, t ∉ buildRegionGeo vmap r tris) := by
  have hmem : ∀ r, t ∈ buildRegionGeo vmap r tris ↔ 2 ≤ triScore vmap r t := by
    intro r
    unfold buildRegionGeo
    rw [List.mem_filter]
    simp [ht]
  refine ⟨hmem, ?_, ?_⟩
  · intro r hr
    refine ⟨(hmem r).mpr hr, ?_⟩
    intro s hsr hmem_s
    have hs := (hmem s).mp hmem_s
    have := triScore_add_le vmap t r s (fun h => hsr h.symm)
    omega
  · intro ⟨hab, hbc, hac⟩ r hmem_r
    have := (hmem r).mp hmem_r
    have := triScore_le_one_of_distinct vmap t r hab hbc hac
    omega

/-- Witness for C4: with classifications [5, 5, 7] the triangle (0,1,2) has
a majority for target 5, appears in target 5's sub-geometry and in no
other (checked at target 7). -/
theorem buildRegionGeo_majority_witness :
    ((⟨0, 1, 2⟩ : Tri) ∈ [(⟨0, 1, 2⟩ : Tri)]) ∧
    2 ≤ triScore [5, 5, 7] 5 ⟨0, 1, 2⟩ ∧
    ((⟨0, 1, 2⟩ : Tri) ∈ buildRegionGeo [5, 5, 7] 5 [⟨0, 1, 2⟩] ∧
      (7 : Nat) ≠ 5 ∧ (⟨0, 1, 2⟩ : Tri) ∉ buildRegionGeo [5, 5, 7] 7 [⟨0, 1, 2⟩]) :=
  ⟨by decide, by decide,
    ((buildRegionGeo_majority [5, 5, 7] [⟨0, 1, 2⟩] ⟨0, 1, 2⟩ (by decide)).2.1
        5 (by decide)).1,
    by decide,
    ((buildRegionGeo_majority [5, 5, 7] [⟨0, 1, 2⟩] ⟨0, 1, 2⟩ (by decide)).2.1
        5 (by decide)).2 7 (by decide)⟩

/-- The mixed-classification test of the boundary pass:
`rA !== rB || rB !== rC || rA !== rC`. -/
def mixedTri (vmap : List Nat) (t : Tri) : Bool :=
  (vmap.getD t.a 0 != vmap.getD t.b 0) || (vmap.getD t.b 0 != vmap.getD t.c 0) ||
    (vmap.getD t.a 0 != vmap.getD t.c 0)

/-- The clickability test of the boundary pass:
`isClickableA || isClickableB || isClickableC`. -/
def triHasClickable (clickable : Nat → Bool) (vmap : List Nat) (t : Tri) : Bool :=
  clickable (vmap.getD t.a 0) || clickable (vmap.getD t.b 0) ||
    clickable (vmap.getD t.c 0)

/-- Embedding of the boundary-marking pass producing `isBoundary`: start
from all-false (`new Uint8Array(pos.count)`) and, for each triangle that is
mixed and touches a clickable classification, mark its three vertices. -/
def isBoundary (clickable : Nat → Bool) (vmap : List Nat) (tris : List Tri)
    (n : Nat) : List Bool :=
  tris.foldl
    (fun acc t =>
      if mixedTri vmap t && triHasClickable clickable vmap t then
        ((acc.set t.a true).set t.b true).set t.c true
      else acc)
    (List.replicate n false)

theorem getD_set_bool (l : List Bool) (j i : Nat) :
    (l.set j true).getD i false =
      if i = j ∧ j < l.length then true else l.getD i false := by
  rw [List.getD_eq_getElem?_getD, List.getElem?_set, List.getD_eq_getElem?_getD]
  by_cases h1 : i = j
  · subst h1
    by_cases h2 : i < l.length
    · simp [h2]
    · simp only [h2, and_false, if_false, if_true]
      rw [List.getElem?_eq_none (le_of_not_lt h2)]
  · simp [h1, Ne.symm h1]

/-- Effect of one triangle's three `set` calls on one position. -/
theorem mark_three_getD (acc : List Bool) (t : Tri) (i : Nat) :
    ((((acc.set t.a true).set t.b true).set t.c true).getD i false = true) ↔
      (acc.getD i false = true ∨
        ((i = t.a ∨ i = t.b ∨ i = t.c) ∧ i < acc.length)) := by
  rw [getD_set_bool, getD_set_bool, getD_set_bool]
  simp only [List.length_set]
  by_cases ha : i = t.a <;> by_cases hb : i = t.b <;> by_cases hc2 : i = t.c <;>
    by_cases hl : i < acc.length <;> simp_all [or_comm]

/-- The fold of the boundary pass marks exactly the vertices (within range)
touched by a qualifying triangle, on top of whatever was already marked. -/
theorem isBoundary_fold (clickable : Nat → Bool) (vmap : List Nat) :
    ∀ (tris : List Tri) (acc : List Bool) (i : Nat),
    ((tris.foldl
        (fun acc t =>
          if mixedTri vmap t && triHasClickable clickable vmap t then
            ((acc.set t.a true).set t.b true).set t.c true
          else acc)
        acc).getD i false = true) ↔
      (acc.getD i false = true ∨
        ∃ t ∈ tris, (mixedTri vmap t && triHasClickable clickable vmap t) = true ∧
          (i = t.a ∨ i = t.b ∨ i = t.c) ∧ i < acc.length) := by
  intro tris
  induction tris with
  | nil => simp
  | cons t ts ih =>
    intro acc i
    rw [List.foldl_cons]
    by_cases hc : (mixedTri vmap t && triHasClickable clickable vmap t) = true
    · rw [if_pos hc, ih]
      rw [mark_three_getD]
      simp only [List.length_set, List.mem_cons]
      constructor
      · rintro ((h | ⟨hi, hlen⟩) | ⟨u, hu, hcu, hiu, hlu⟩)
        · exact Or.inl h
        · exact Or.inr ⟨t, Or.inl rfl, hc, hi, hlen⟩
        · exact Or.inr ⟨u, Or.inr hu, hcu, hiu, hlu⟩
      · rintro (h | ⟨u, hu | hu, hcu, hiu, hlu⟩)
        · exact Or.inl (Or.inl h)
        · exact Or.inl (Or.inr ⟨hu ▸ hiu, hlu⟩)
        · exact Or.inr ⟨u, hu, hcu, hiu, hlu⟩
    · rw [if_neg hc, ih]
      constructor
      · rintro (h | ⟨u, hu, hcu, hiu, hlu⟩)
        · exact Or.inl h
        · exact Or.inr ⟨u, List.mem_cons_of_mem t hu, hcu, hiu, hlu⟩
      · rintro (h | ⟨u, hu, hcu, hiu, hlu⟩)
        · exact Or.inl h
        · rcases List.mem_cons.mp hu with rfl | hu
          · exact absurd hcu hc
          · exact Or.inr ⟨u, hu, hcu, hiu, hlu⟩

/-- C5: a vertex is marked boundary iff it belongs to some triangle whose
three vertices do not all share one classification and at least one of the
three classifications is clickable; in particular a vertex all of whose
triangles are uniform, or mixed only among non-clickable (dummy)
classifications, is never marked. -/
theorem isBoundary_iff (clickable : Nat → Bool) (vmap : List Nat)
    (tris : List Tri) (n i : Nat) (hi : i < n) :
    ((isBoundary clickable vmap tris n).getD i false = true) ↔
      ∃ t ∈ tris, (i = t.a ∨ i = t.b ∨ i = t.c) ∧
        mixedTri vmap t = true ∧ triHasClickable clickable vmap t = true := by
  unfold isBoundary
  rw [isBoundary_fold]
  have hrep : (List.replicate n false).getD i false = false := by
    rw [List.getD_eq_getElem?_getD, List.getElem?_replicate]
    split <;> rfl
  rw [hrep]
  simp only [List.length_replicate, Bool.and_eq_true]
  constructor
  · rintro (h | ⟨t, ht, ⟨h1, h2⟩, hit, _⟩)
    · exact absurd h (by simp)
    · exact ⟨t, ht, hit, h1, h2⟩
  · rintro ⟨t, ht, hit, h1, h2⟩
    exact Or.inr ⟨t, ht, ⟨h1, h2⟩, hit, hi⟩

/-- Witness for C5: classifications [0, 0, 3] with only anchor 3 clickable;
the triangle (0,1,2) is mixed with a clickable classification, so vertex 0
is marked boundary. -/
theorem isBoundary_iff_witness :
    (0 : Nat) < 3 ∧
    (((isBoundary (fun r => r == 3) [0, 0, 3] [⟨0, 1, 2⟩] 3).getD 0 false = true) ↔
      ∃ t ∈ [(⟨0, 1, 2⟩ : Tri)], (0 = t.a ∨ 0 = t.b ∨ 0 = t.c) ∧
        mixedTri [0, 0, 3] t = true ∧
        triHasClickable (fun r => r == 3) [0, 0, 3] t = true) :=
  ⟨by decide, isBoundary_iff (fun r => r == 3) [0, 0, 3] [⟨0, 1, 2⟩] 3 0 (by decide)⟩

/-! ## Heatmap ramp and per-vertex coloring

Embedding of `intensityToColor` and the per-vertex color choice of the
`coloredGeometry` pass.  A `THREE.Color` is embedded as its RGB channel
triple with channel values `hexByte / 255`; `Color.lerp` is componentwise
`a + (b - a) * alpha`.  `intensity / 10` is embedded as
`intensity * (1/10)` and the band divisions `(t - c) / 0.25` as
`(t - c) * 4` (both exact). -/

/-- An RGB color with exact rational channels. -/
structure Color where
  r : ℚ
  g : ℚ
  b : ℚ
  deriving DecidableEq

/-- Componentwise linear interpolation, `THREE.Color.lerp`. -/
def lerpC (u w : Color) (alpha : ℚ) : Color :=
  ⟨qadd u.r (qmul (qsub w.r u.r) alpha),
   qadd u.g (qmul (qsub w.g u.g) alpha),
   qadd u.b (qmul (qsub w.b u.b) alpha)⟩

/-- Ramp stop `#93c5fd` (low / blue). -/
def colorBlue : Color := ⟨mkRat 0x93 255, mkRat 0xc5 255, mkRat 0xfd 255⟩

/-- Ramp stop `#6ee7b7` (green). -/
def colorGreen : Color := ⟨mkRat 0x6e 255, mkRat 0xe7 255, mkRat 0xb7 255⟩

/-- Ramp stop `#fde047` (yellow). -/
def colorYellow : Color := ⟨mkRat 0xfd 255, mkRat 0xe0 255, mkRat 0x47 255⟩

/-- Ramp stop `#fb923c` (orange). -/
def colorOrange : Color := ⟨mkRat 0xfb 255, mkRat 0x92 255, mkRat 0x3c 255⟩

/-- Ramp stop `#ef4444` (high / red). -/
def colorRed : Color := ⟨mkRat 0xef 255, mkRat 0x44 255, mkRat 0x44 255⟩

/-- The clamp `Math.max(0, Math.min(1, x))`. -/
def clamp01 (x : ℚ) : ℚ := qmax 0 (qmin 1 x)

/-- The heatmap ramp `intensityToColor`:
`t = clamp(intensity / 10, 0, 1)`, then piecewise-linear interpolation
between consecutive stops within each quartile band of `t`. -/
def intensityToColor (intensity : ℚ) : Color :=
  if clamp01 (qmul intensity (mkRat 1 10)) < mkRat 1 4 then
    lerpC colorBlue colorGreen (qmul (clamp01 (qmul intensity (mkRat 1 10))) 4)
  else if clamp01 (qmul intensity (mkRat 1 10)) < mkRat 1 2 then
    lerpC colorGreen colorYellow
      (qmul (qsub (clamp01 (qmul intensity (mkRat 1 10))) (mkRat 1 4)) 4)
  else if clamp01 (qmul intensity (mkRat 1 10)) < mkRat 3 4 then
    lerpC colorYellow colorOrange
      (qmul (qsub (clamp01 (qmul intensity (mkRat 1 10))) (mkRat 1 2)) 4)
  else
    lerpC colorOrange colorRed
      (qmul (qsub (clamp01 (qmul intensity (mkRat 1 10))) (mkRat 3 4)) 4)

/-- Selection/hover colors of `coloredGeometry`: `#f3f4f6` base. -/
def baseColor : Color := ⟨mkRat 0xf3 255, mkRat 0xf4 255, mkRat 0xf6 255⟩

/-- Selected color `#fca5a5` (red-300). -/
def selectedColor : Color := ⟨mkRat 0xfc 255, mkRat 0xa5 255, mkRat 0xa5 255⟩

/-- Hovered color `#fee2e2` (red-100). -/
def hoveredColor : Color := ⟨mkRat 0xfe 255, mkRat 0xe2 255, mkRat 0xe2 255⟩

/-- Selected-and-hovered color `#f87171` (red-400). -/
def selectedHoveredColor : Color := ⟨mkRat 0xf8 255, mkRat 0x71 255, mkRat 0x71 255⟩

/-- Boundary seam color `#9ca3af` (gray-400). -/
def boundaryColor : Color := ⟨mkRat 0x9c 255, mkRat 0xa3 255, mkRat 0xaf 255⟩

/-- The selection/hover branch of the per-vertex color chain. -/
def selectionColor (isSelected isHovered : Bool) : Color :=
  if isSelected && isHovered then selectedHoveredColor
  else if isSelected then selectedColor
  else if isHovered then hoveredColor
  else baseColor

/-- The per-vertex color choice of `coloredGeometry` for one vertex, given
its region's clickability, its boundary flag, the selection/hover state of
its region and the optionally supplied heatmap intensity
(`regionIntensity !== undefined && regionIntensity > 0` selects the
heatmap branch). -/
def vertexColor (clickable bnd isSelected isHovered : Bool)
    (regionIntensity : Option ℚ) : Color :=
  if clickable then
    if bnd then boundaryColor
    else
      match regionIntensity with
      | some q =>
        if 0 < q then intensityToColor q else selectionColor isSelected isHovered
      | none => selectionColor isSelected isHovered
  else if bnd then boundaryColor else baseColor

/-- C6 counterexample: an intensity of 0 lies in [0,10] and is supplied,
yet the coloring does not bypass selection coloring — a selected vertex is
painted `selectedColor`, not the ramp color of intensity 0 (blue). -/
theorem heatmap_zero_counterexample :
    vertexColor true false true false (some 0) = selectedColor ∧
    intensityToColor 0 = colorBlue ∧
    selectedColor ≠ colorBlue := by
  decide

/-- C6 (amended): a supplied strictly positive intensity (0 < q ≤ 10)
makes a non-boundary vertex of the region bypass selection/hover coloring
in favour of the ramp; the ramp has stops blue, green, yellow, orange, red
at intensities 0, 2.5, 5, 7.5, 10, the clamp is the identity on [0,10],
and within each quartile band of `t = q/10` the color is the linear
interpolation of the band's two stops. -/
theorem heatmap_ramp (q : ℚ) (s h : Bool) (hq : 0 < q) (hq10 : q ≤ 10) :
    vertexColor true false s h (some q) = intensityToColor q ∧
    (intensityToColor 0 = colorBlue ∧ intensityToColor (mkRat 5 2) = colorGreen ∧
      intensityToColor 5 = colorYellow ∧ intensityToColor (mkRat 15 2) = colorOrange ∧
      intensityToColor 10 = colorRed) ∧
    clamp01 (qmul q (mkRat 1 10)) = qmul q (mkRat 1 10) ∧
    (qmul q (mkRat 1 10) < mkRat 1 4 →
      intensityToColor q = lerpC colorBlue colorGreen (qmul (qmul q (mkRat 1 10)) 4)) ∧
    (mkRat 1 4 ≤ qmul q (mkRat 1 10) → qmul q (mkRat 1 10) < mkRat 1 2 →
      intensityToColor q =
        lerpC colorGreen colorYellow (qmul (qsub (qmul q (mkRat 1 10)) (mkRat 1 4)) 4)) ∧
    (mkRat 1 2 ≤ qmul q (mkRat 1 10) → qmul q (mkRat 1 10) < mkRat 3 4 →
      intensityToColor q =
        lerpC colorYellow colorOrange (qmul (qsub (qmul q (mkRat 1 10)) (mkRat 1 2)) 4)) ∧
    (mkRat 3 4 ≤ qmul q (mkRat 1 10) →
      intensityToColor q =
        lerpC colorOrange colorRed (qmul (qsub (qmul q (mkRat 1 10)) (mkRat 3 4)) 4)) := by
  have hclamp : clamp01 (qmul q (mkRat 1 10)) = qmul q (mkRat 1 10) := by
    unfold clamp01
    rw [qmax_eq, qmin_eq, qmul_eq, Rat.mkRat_eq_div]
    push_cast
    have h1 : q * ((1 : ℚ) / 10) ≤ 1 := by linarith
    have h2 : (0 : ℚ) ≤ q * ((1 : ℚ) / 10) := by
      have h3 : (0 : ℚ) ≤ 1 / 10 := by norm_num
      exact mul_nonneg hq.le h3
    rw [min_eq_right h1, max_eq_right h2]
  refine ⟨by simp [vertexColor, hq], ⟨by decide, by decide, by decide, by decide, by decide⟩,
    hclamp, ?_, ?_, ?_, ?_⟩
  · intro hband
    rw [intensityToColor, hclamp, if_pos hband]
  · intro hlo hband
    rw [intensityToColor, hclamp, if_neg (not_lt.mpr hlo), if_pos hband]
  · intro hlo hband
    have h14 : (mkRat 1 4 : ℚ) ≤ mkRat 1 2 := by
      rw [Rat.mkRat_eq_div, Rat.mkRat_eq_div]
      norm_num
    rw [intensityToColor, hclamp, if_neg (not_lt.mpr (le_trans h14 hlo)),
      if_neg (not_lt.mpr hlo), if_pos hband]
  · intro hlo
    have h14 : (mkRat 1 4 : ℚ) ≤ mkRat 3 4 := by
      rw [Rat.mkRat_eq_div, Rat.mkRat_eq_div]
      norm_num
    have h12 : (mkRat 1 2 : ℚ) ≤ mkRat 3 4 := by
      rw [Rat.mkRat_eq_div, Rat.mkRat_eq_div]
      norm_num
    rw [intensityToColor, hclamp, if_neg (not_lt.mpr (le_trans h14 hlo)),
      if_neg (not_lt.mpr (le_trans h12 hlo)), if_neg (not_lt.mpr hlo)]

/-- Witness for C6's amended theorem at intensity 2 on a selected, hovered
region: the vertex takes the ramp color of the first band. -/
theorem heatmap_ramp_witness :
    (0 : ℚ) < 2 ∧ (2 : ℚ) ≤ 10 ∧
    vertexColor true false true true (some 2) = intensityToColor 2 ∧
    (qmul 2 (mkRat 1 10) < mkRat 1 4 ∧
      intensityToColor 2 = lerpC colorBlue colorGreen (qmul (qmul 2 (mkRat 1 10)) 4)) :=
  ⟨by decide, by decide,
    (heatmap_ramp 2 true true (by decide) (by decide)).1,
    by decide,
    (heatmap_ramp 2 true true (by decide) (by decide)).2.2.2.1 (by decide)⟩

/-! ## Region toggle (log pages)

Embedding of `handleToggleRegion`'s selection update:
`prev.includes(region) ? prev.filter(r => r !== region) : [...prev, region]`. -/

/-- Toggle a region in the selection list: remove every occurrence if
present, append at the end if absent. -/
def handleToggleRegion (prev : List String) (region : String) : List String :=
  if region ∈ prev then prev.filter (fun r => r ≠ region) else prev ++ [region]

/-- C7: toggling adds the region if absent and removes it if present, and
toggling the same region twice returns the selection set (its membership)
to the original state. -/
theorem handleToggleRegion_pair (prev : List String) (region : String) :
    (region ∉ prev → handleToggleRegion prev region = prev ++ [region]) ∧
    (region ∈ prev →
      region ∉ handleToggleRegion prev region ∧
      ∀ x, x ≠ region → (x ∈ handleToggleRegion prev region ↔ x ∈ prev)) ∧
    (∀ x, x ∈ handleToggleRegion (handleToggleRegion prev region) region ↔ x ∈ prev) := by
  refine ⟨?_, ?_, ?_⟩
  · intro h
    rw [handleToggleRegion, if_neg h]
  · intro h
    rw [handleToggleRegion, if_pos h]
    constructor
    · intro hmem
      rcases List.mem_filter.mp hmem with ⟨_, hx⟩
      simp at hx
    · intro x hx
      constructor
      · intro hmem
        exact (List.mem_filter.mp hmem).1
      · intro hmem
        exact List.mem_filter.mpr ⟨hmem, by simp [hx]⟩
  · intro x
    by_cases h : region ∈ prev
    · have h1 : handleToggleRegion prev region = prev.filter (fun r => r ≠ region) := by
        rw [handleToggleRegion, if_pos h]
      have hnot : region ∉ prev.filter (fun r => r ≠ region) := by
        intro hmem
        rcases List.mem_filter.mp hmem with ⟨_, hx⟩
        simp at hx
      rw [h1, handleToggleRegion, if_neg hnot, List.mem_append]
      by_cases hx : x = region
      · subst hx
        simp [h]
      · simp only [List.mem_filter, List.mem_singleton, hx, or_false]
        constructor
        · rintro ⟨hmem, _⟩
          exact hmem
        · intro hmem
          exact ⟨hmem, by simp [hx]⟩
    · have h1 : handleToggleRegion prev region = prev ++ [region] := by
        rw [handleToggleRegion, if_neg h]
      rw [h1, handleToggleRegion, if_pos (by simp : region ∈ prev ++ [region])]
      rw [List.filter_append]
      have h2 : [region].filter (fun r => r ≠ region) = [] := by simp
      rw [h2, List.append_nil]
      by_cases hx : x = region
      · subst hx
        constructor
        · intro hmem
          exact absurd ((List.mem_filter.mp hmem).1) h
        · intro hmem
          exact absurd hmem h
      · constructor
        · intro hmem
          exact (List.mem_filter.mp hmem).1
        · intro hmem
          exact List.mem_filter.mpr ⟨hmem, by simp [hx]⟩

/-- Witness for C7: toggling a present region removes it, and a double
toggle restores membership, on a concrete two-element selection. -/
theorem handleToggleRegion_pair_witness :
    (("Forehead" : String) ∈ (["Forehead", "Neck base"] : List String)) ∧
    ("Forehead" : String) ∉ handleToggleRegion ["Forehead", "Neck base"] "Forehead" ∧
    (("Neck base" : String) ∈
        handleToggleRegion
          (handleToggleRegion ["Forehead", "Neck base"] "Forehead") "Forehead" ↔
      ("Neck base" : String) ∈ (["Forehead", "Neck base"] : List String)) :=
  ⟨by decide,
    ((handleToggleRegion_pair ["Forehead", "Neck base"] "Forehead").2.1 (by decide)).1,
    (handleToggleRegion_pair ["Forehead", "Neck base"] "Forehead").2.2 "Neck base"⟩

/-! ## Session store

Embedding of the zustand store slice used by `addSession`.  The
`uuidv4()` fresh id is an explicit argument of the embedded action. -/

/-- One logged region of a migraine session. -/
structure RegionLog where
  region_name : String
  intensity : ℚ
  deriving DecidableEq

/-- A stored migraine session. -/
structure MigraineSession where
  id : String
  user_id : String
  start_time : String
  end_time : String
  notes : String
  regions : List RegionLog
  deriving DecidableEq

/-- A logged-in user. -/
structure User where
  id : String
  email : String
  created_at : String
  deriving DecidableEq

/-- The store state touched by `addSession`. -/
structure AppState where
  currentUser : Option User
  sessions : List MigraineSession
  deriving DecidableEq

/-- The `addSession` payload: all fields of `MigraineSession` except `id`
and `user_id`. -/
structure SessionInput where
  start_time : String
  end_time : String
  notes : String
  regions : List RegionLog
  deriving DecidableEq

/-- Embedding of the store action `addSession`: a no-op without a current
user, otherwise append one new session built from the payload, the fresh
id and the current user's id. -/
def addSession (st : AppState) (newId : String) (input : SessionInput) : AppState :=
  match st.currentUser with
  | none => st
  | some u =>
    { st with
      sessions := st.sessions ++
        [{ id := newId, user_id := u.id, start_time := input.start_time,
           end_time := input.end_time, notes := input.notes,
           regions := input.regions }] }

/-- C10: with no logged-in user `addSession` leaves the state (hence the
sessions list) unchanged; with a logged-in user it appends exactly one new
session at the end, carrying the current user's id and the given payload,
leaving every existing session and the current user unchanged. -/
theorem addSession_spec (st : AppState) (newId : String) (input : SessionInput) :
    (st.currentUser = none → addSession st newId input = st) ∧
    (∀ u, st.currentUser = some u →
      (addSession st newId input).sessions =
        st.sessions ++
          [{ id := newId, user_id := u.id, start_time := input.start_time,
             end_time := input.end_time, notes := input.notes,
             regions := input.regions }] ∧
      (addSession st newId input).currentUser = st.currentUser) := by
  constructor
  · intro h
    unfold addSession
    rw [h]
  · intro u hu
    unfold addSession
    rw [hu]
    exact ⟨rfl, rfl⟩

/-- Witness for C10 on concrete states: a logged-out state is unchanged,
and a logged-in state gets exactly the one appended session. -/
theorem addSession_spec_witness :
    ((⟨none, []⟩ : AppState).currentUser = none ∧
      addSession ⟨none, []⟩ "sid" ⟨"t0", "t1", "n", []⟩ = ⟨none, []⟩) ∧
    ((⟨some ⟨"uid", "e@x.com", "t"⟩, []⟩ : AppState).currentUser =
        some ⟨"uid", "e@x.com", "t"⟩ ∧
      (addSession ⟨some ⟨"uid", "e@x.com", "t"⟩, []⟩ "sid" ⟨"t0", "t1", "n", []⟩).sessions =
        [] ++ [⟨"sid", "uid", "t0", "t1", "n", []⟩]) :=
  ⟨⟨by decide, (addSession_spec ⟨none, []⟩ "sid" ⟨"t0", "t1", "n", []⟩).1 (by decide)⟩,
   ⟨by decide,
    ((addSession_spec ⟨some ⟨"uid", "e@x.com", "t"⟩, []⟩ "sid" ⟨"t0", "t1", "n", []⟩).2
        ⟨"uid", "e@x.com", "t"⟩ (by decide)).1⟩⟩

/-! ## Region-frequency analytics

Embedding of `computeRegionFrequency`: a JS `Map` is an insertion-ordered
association list (`Map.set` updates in place, appends new keys), the
nested `forEach` loops are folds, `Math.round` is `jsRound`, and the final
`.sort((a, b) => b.count - a.count)` — a stable sort in JS — is a stable
insertion sort by non-increasing count.  `total / count` is embedded as
`total * (1 / count)` and the final `/ 10` as `* (1 / 10)` (both exact for
`count > 0`). -/

/-- JS `Math.round`: nearest integer, halves toward positive infinity,
i.e. `⌊x + 1/2⌋` (`jsRound_eq_floor`). -/
def jsRound (q : ℚ) : ℤ :=
  (qadd q (mkRat 1 2)).num.fdiv ((qadd q (mkRat 1 2)).den : ℤ)

theorem jsRound_eq_floor (q : ℚ) : jsRound q = ⌊q + 1 / 2⌋ := by
  unfold jsRound
  have h12 : (mkRat 1 2 : ℚ) = 1 / 2 := by
    rw [Rat.mkRat_eq_div]
    norm_num
  rw [qadd_eq, h12, Int.fdiv_eq_ediv _ (Int.ofNat_nonneg _), ← Rat.floor_def]

/-- One output row of `computeRegionFrequency`. -/
structure RegionFrequency where
  region : String
  count : Nat
  avgIntensity : ℚ
  deriving DecidableEq

/-- JS `Map.get` over the insertion-ordered entry list. -/
def mapGet (m : List (String × Nat × ℚ)) (k : String) : Option (Nat × ℚ) :=
  match m with
  | [] => none
  | (k1, v1) :: rest => if k1 = k then some v1 else mapGet rest k

/-- JS `Map.set`: update the value in place if the key is present (keeping
its position), append the new entry otherwise. -/
def mapSet (m : List (String × Nat × ℚ)) (k : String) (v : Nat × ℚ) :
    List (String × Nat × ℚ) :=
  match m with
  | [] => [(k, v)]
  | (k1, v1) :: rest =>
    if k1 = k then (k, v) :: rest else (k1, v1) :: mapSet rest k v

/-- The inner `forEach` body: `existing = regionMap.get(name) || {count: 0,
totalIntensity: 0}`, then `regionMap.set(name, {count: existing.count + 1,
totalIntensity: existing.totalIntensity + intensity})`. -/
def accumLog (m : List (String × Nat × ℚ)) (r : RegionLog) :
    List (String × Nat × ℚ) :=
  mapSet m r.region_name
    (((mapGet m r.region_name).getD (0, 0)).1 + 1,
      qadd ((mapGet m r.region_name).getD (0, 0)).2 r.intensity)

/-- The two nested `forEach` loops building `regionMap`. -/
def regionMapOf (sessions : List MigraineSession) : List (String × Nat × ℚ) :=
  sessions.foldl (fun m s => s.regions.foldl accumLog m) []

/-- One row of the `Array.from(regionMap.entries()).map(...)` step:
`avgIntensity = count > 0 ? Math.round(totalIntensity / count * 10) / 10 : 0`. -/
def freqEntry (e : String × Nat × ℚ) : RegionFrequency :=
  ⟨e.1, e.2.1,
    if 0 < e.2.1 then
      qmul ((jsRound (qmul (qmul e.2.2 (mkRat 1 e.2.1)) 10) : ℤ) : ℚ) (mkRat 1 10)
    else 0⟩

/-- Stable insertion of a row into an accumulator sorted by non-increasing
count: the new row goes after every earlier row whose count is ≥ its own
(the comparator `(a, b) => b.count - a.count`). -/
def insertCountDesc (x : RegionFrequency) :
    List RegionFrequency → List RegionFrequency
  | [] => [x]
  | y :: ys => if y.count < x.count then x :: y :: ys else y :: insertCountDesc x ys

/-- Stable sort by non-increasing count. -/
def sortCountDesc (l : List RegionFrequency) : List RegionFrequency :=
  l.foldl (fun acc x => insertCountDesc x acc) []

/-- Embedding of `computeRegionFrequency`. -/
def computeRegionFrequency (sessions : List MigraineSession) :
    List RegionFrequency :=
  sortCountDesc ((regionMapOf sessions).map freqEntry)

/-- All region logs of all sessions, in order. -/
def allLogs (sessions : List MigraineSession) : List RegionLog :=
  (sessions.map (fun s => s.regions)).flatten

/-- Number of occurrences of `name` across all sessions' region lists. -/
def occCount (sessions : List MigraineSession) (name : String) : Nat :=
  ((allLogs sessions).filter (fun r => r.region_name = name)).length

/-- Sum of the intensities of `name`'s occurrences. -/
def occTotal (sessions : List MigraineSession) (name : String) : ℚ :=
  (((allLogs sessions).filter (fun r => r.region_name = name)).map
    (fun r => r.intensity)).sum

theorem regionMapOf_eq_foldl (sessions : List MigraineSession) :
    regionMapOf sessions = (allLogs sessions).foldl accumLog [] := by
  suffices h : ∀ (m : List (String × Nat × ℚ)),
      sessions.foldl (fun m s => s.regions.foldl accumLog m) m =
        (allLogs sessions).foldl accumLog m by
    exact h []
  induction sessions with
  | nil =>
    intro m
    rfl
  | cons s ss ih =>
    intro m
    rw [List.foldl_cons]
    rw [ih]
    unfold allLogs
    rw [List.map_cons, List.flatten_cons, List.foldl_append]

theorem mapGet_mapSet_self (m : List (String × Nat × ℚ)) (k : String)
    (v : Nat × ℚ) : mapGet (mapSet m k v) k = some v := by
  induction m with
  | nil => simp [mapSet, mapGet]
  | cons e rest ih =>
    obtain ⟨k1, v1⟩ := e
    by_cases h : k1 = k
    · simp [mapSet, mapGet, h]
    · simp [mapSet, mapGet, h, ih]

theorem mapGet_mapSet_ne (m : List (String × Nat × ℚ)) (k k2 : String)
    (v : Nat × ℚ) (h : k ≠ k2) : mapGet (mapSet m k v) k2 = mapGet m k2 := by
  induction m with
  | nil => simp [mapSet, mapGet, h]
  | cons e rest ih =>
    obtain ⟨k1, v1⟩ := e
    by_cases h1 : k1 = k
    · subst h1
      simp [mapSet, mapGet, h]
    · simp [mapSet, mapGet, h1, ih]

theorem mapGet_accumLog (m : List (String × Nat × ℚ)) (r : RegionLog)
    (k : String) :
    mapGet (accumLog m r) k =
      if r.region_name = k then
        some (((mapGet m k).getD (0, 0)).1 + 1,
          qadd ((mapGet m k).getD (0, 0)).2 r.intensity)
      else mapGet m k := by
  unfold accumLog
  by_cases h : r.region_name = k
  · subst h
    rw [if_pos rfl, mapGet_mapSet_self]
  · rw [if_neg h, mapGet_mapSet_ne _ _ _ _ h]

/-- Characterisation of the accumulated map after folding a list of logs:
the entry of key `k` holds the number of `k`-logs and the sum of their
intensities, on top of whatever the accumulator already held. -/
theorem mapGet_foldl_accumLog (logs : List RegionLog) :
    ∀ (m : List (String × Nat × ℚ)) (k : String),
    mapGet (logs.foldl accumLog m) k =
      if (logs.filter (fun r => r.region_name = k)).length = 0 then mapGet m k
      else
        some (((mapGet m k).getD (0, 0)).1 +
            (logs.filter (fun r => r.region_name = k)).length,
          ((mapGet m k).getD (0, 0)).2 +
            ((logs.filter (fun r => r.region_name = k)).map
              (fun r => r.intensity)).sum) := by
  induction logs with
  | nil =>
    intro m k
    simp
  | cons r logs ih =>
    intro m k
    rw [List.foldl_cons, ih]
    by_cases h : r.region_name = k
    · have hfil : (r :: logs).filter (fun x => x.region_name = k) =
          r :: logs.filter (fun x => x.region_name = k) := by
        simp [List.filter_cons, h]
      rw [hfil, mapGet_accumLog, if_pos h]
      simp only [Option.getD_some, List.length_cons, List.map_cons, List.sum_cons]
      by_cases hc : (logs.filter (fun x => x.region_name = k)).length = 0
      · rw [if_pos hc, if_neg (by omega)]
        have hnil : logs.filter (fun x => x.region_name = k) = [] :=
          List.length_eq_zero.mp hc
        rw [hnil]
        simp [qadd_eq]
      · rw [if_neg hc, if_neg (by omega)]
        have harith :
            qadd ((mapGet m k).getD (0, 0)).2 r.intensity +
              ((logs.filter (fun x => x.region_name = k)).map
                (fun x => x.intensity)).sum =
            ((mapGet m k).getD (0, 0)).2 +
              (r.intensity +
                ((logs.filter (fun x => x.region_name = k)).map
                  (fun x => x.intensity)).sum) := by
          rw [qadd_eq]
          ring
        have hfst : ((mapGet m k).getD (0, 0)).1 + 1 +
              (logs.filter (fun x => x.region_name = k)).length =
            ((mapGet m k).getD (0, 0)).1 +
              ((logs.filter (fun x => x.region_name = k)).length + 1) := by
          omega
        rw [harith, hfst]
    · have hfil : (r :: logs).filter (fun x => x.region_name = k) =
          logs.filter (fun x => x.region_name = k) := by
        simp [List.filter_cons, h]
      rw [hfil, mapGet_accumLog, if_neg h]

/-- Keys of the map after `mapSet`: unchanged when the key was present,
extended by the key at the end otherwise. -/
theorem mapSet_keys (m : List (String × Nat × ℚ)) (k : String) (v : Nat × ℚ) :
    (mapSet m k v).map Prod.fst =
      if k ∈ m.map Prod.fst then m.map Prod.fst else m.map Prod.fst ++ [k] := by
  induction m with
  | nil => simp [mapSet]
  | cons e rest ih =>
    obtain ⟨k1, v1⟩ := e
    by_cases h : k1 = k
    · subst h
      simp [mapSet]
    · simp only [mapSet, if_neg h, List.map_cons, List.mem_cons]
      rw [ih]
      by_cases h2 : k ∈ rest.map Prod.fst
      · rw [if_pos h2, if_pos (Or.inr h2)]
      · rw [if_neg h2, if_neg (by rintro (h3 | h3); exact h (h3.symm); exact h2 h3)]
        rfl

/-- A key is absent from the entry list iff `mapGet` misses. -/
theorem mapGet_eq_none_iff (m : List (String × Nat × ℚ)) (k : String) :
    mapGet m k = none ↔ k ∉ m.map Prod.fst := by
  induction m with
  | nil => simp [mapGet]
  | cons e rest ih =>
    obtain ⟨k1, v1⟩ := e
    by_cases h : k1 = k
    · subst h
      simp [mapGet]
    · rw [mapGet, if_neg h, List.map_cons, ih]
      constructor
      · intro hn hmem
        rcases List.mem_cons.mp hmem with hk | hk
        · exact h hk.symm
        · exact hn hk
      · intro hn hk
        exact hn (List.mem_cons_of_mem _ hk)

/-- `mapSet` preserves distinctness of keys. -/
theorem mapSet_keys_nodup (m : List (String × Nat × ℚ)) (k : String)
    (v : Nat × ℚ) (h : (m.map Prod.fst).Nodup) :
    ((mapSet m k v).map Prod.fst).Nodup := by
  rw [mapSet_keys]
  by_cases h2 : k ∈ m.map Prod.fst
  · rw [if_pos h2]
    exact h
  · rw [if_neg h2]
    rw [List.nodup_append]
    exact ⟨h, List.nodup_singleton k, by simpa using h2⟩

/-- The region map built from any session list has pairwise-distinct keys. -/
theorem regionMapOf_keys_nodup (sessions : List MigraineSession) :
    ((regionMapOf sessions).map Prod.fst).Nodup := by
  rw [regionMapOf_eq_foldl]
  suffices h : ∀ (logs : List RegionLog) (m : List (String × Nat × ℚ)),
      (m.map Prod.fst).Nodup → ((logs.foldl accumLog m).map Prod.fst).Nodup by
    exact h (allLogs sessions) [] (by simp)
  intro logs
  induction logs with
  | nil =>
    intro m hm
    exact hm
  | cons r logs ih =>
    intro m hm
    rw [List.foldl_cons]
    exact ih _ (mapSet_keys_nodup _ _ _ hm)

/-- Over distinct keys, membership of an entry pins down `mapGet`. -/
theorem mapGet_of_mem (m : List (String × Nat × ℚ)) (k : String) (v : Nat × ℚ)
    (hnd : (m.map Prod.fst).Nodup) (hmem : (k, v) ∈ m) :
    mapGet m k = some v := by
  induction m with
  | nil => exact absurd hmem (List.not_mem_nil _)
  | cons e rest ih =>
    obtain ⟨k1, v1⟩ := e
    rw [List.map_cons, List.nodup_cons] at hnd
    rcases List.mem_cons.mp hmem with h | h
    · injection h with h1 h2
      subst h1
      subst h2
      simp [mapGet]
    · have hk1 : k1 ≠ k := by
        intro heq
        subst heq
        exact hnd.1 (List.mem_map.mpr ⟨(k1, v), h, rfl⟩)
      simp only [mapGet, if_neg hk1]
      exact ih hnd.2 h

/-- Conversely, a `mapGet` hit is an entry of the list. -/
theorem mem_of_mapGet (m : List (String × Nat × ℚ)) (k : String) (v : Nat × ℚ)
    (h : mapGet m k = some v) : (k, v) ∈ m := by
  induction m with
  | nil => exact absurd h (by simp [mapGet])
  | cons e rest ih =>
    obtain ⟨k1, v1⟩ := e
    by_cases h1 : k1 = k
    · subst h1
      rw [mapGet, if_pos rfl, Option.some.injEq] at h
      subst h
      exact List.mem_cons_self _ _
    · rw [mapGet, if_neg h1] at h
      exact List.mem_cons_of_mem _ (ih h)

theorem insertCountDesc_perm (x : RegionFrequency) (l : List RegionFrequency) :
    List.Perm (insertCountDesc x l) (x :: l) := by
  induction l with
  | nil => exact List.Perm.refl _
  | cons y ys ih =>
    unfold insertCountDesc
    split
    · exact List.Perm.refl _
    · exact (List.Perm.cons y ih).trans (List.Perm.swap x y ys)

theorem sortCountDesc_perm (l : List RegionFrequency) :
    List.Perm (sortCountDesc l) l := by
  suffices h : ∀ acc, List.Perm (l.foldl (fun acc x => insertCountDesc x acc) acc)
      (acc ++ l) by
    simpa using h []
  induction l with
  | nil =>
    intro acc
    simp
  | cons x xs ih =>
    intro acc
    rw [List.foldl_cons]
    have h1 := ih (insertCountDesc x acc)
    have h2 : List.Perm (insertCountDesc x acc ++ xs) ((x :: acc) ++ xs) :=
      (insertCountDesc_perm x acc).append_right xs
    have h3 : List.Perm (x :: (acc ++ xs)) (acc ++ x :: xs) :=
      List.perm_middle.symm
    exact (h1.trans h2).trans h3

theorem insertCountDesc_sorted (x : RegionFrequency) (l : List RegionFrequency)
    (hl : l.Pairwise (fun a b => b.count ≤ a.count)) :
    (insertCountDesc x l).Pairwise (fun a b => b.count ≤ a.count) := by
  induction l with
  | nil => simp [insertCountDesc]
  | cons y ys ih =>
    rw [List.pairwise_cons] at hl
    obtain ⟨hy, hys⟩ := hl
    unfold insertCountDesc
    split
    · rename_i hlt
      rw [List.pairwise_cons]
      constructor
      · intro b hb
        rcases List.mem_cons.mp hb with rfl | hb
        · exact le_of_lt hlt
        · exact le_trans (hy b hb) (le_of_lt hlt)
      · exact List.pairwise_cons.mpr ⟨hy, hys⟩
    · rename_i hnlt
      rw [List.pairwise_cons]
      constructor
      · intro b hb
        have hmem := (insertCountDesc_perm x ys).mem_iff.mp hb
        rcases List.mem_cons.mp hmem with rfl | hb2
        · exact le_of_not_lt hnlt
        · exact hy b hb2
      · exact ih hys

theorem sortCountDesc_sorted (l : List RegionFrequency) :
    (sortCountDesc l).Pairwise (fun a b => b.count ≤ a.count) := by
  suffices h : ∀ acc, acc.Pairwise (fun a b => b.count ≤ a.count) →
      (l.foldl (fun acc x => insertCountDesc x acc) acc).Pairwise
        (fun a b => b.count ≤ a.count) by
    exact h [] (by simp)
  induction l with
  | nil =>
    intro acc h
    simpa using h
  | cons x xs ih =>
    intro acc h
    rw [List.foldl_cons]
    exact ih _ (insertCountDesc_sorted x acc h)

/-- The built region map holds, per name, exactly the occurrence count and
intensity total over all sessions (and no entry for absent names). -/
theorem mapGet_regionMapOf (sessions : List MigraineSession) (name : String) :
    mapGet (regionMapOf sessions) name =
      if occCount sessions name = 0 then none
      else some (occCount sessions name, occTotal sessions name) := by
  rw [regionMapOf_eq_foldl, mapGet_foldl_accumLog]
  unfold occCount occTotal
  by_cases h : ((allLogs sessions).filter (fun r => r.region_name = name)).length = 0
  · rw [if_pos h, if_pos h]
    rfl
  · rw [if_neg h, if_neg h]
    show some _ = some _
    simp [mapGet]

/-- C9: `computeRegionFrequency` returns exactly one row per region name
that occurs in some session's regions (and none for other names); each
row's count is the total number of occurrences across all sessions; its
avgIntensity is the mean intensity of those occurrences rounded to one
decimal place (`Math.round(mean * 10) / 10`); the rows are sorted by
non-increasing count; and the empty session list yields the empty list. -/
theorem computeRegionFrequency_spec (sessions : List MigraineSession) :
    ((computeRegionFrequency sessions).map (fun e => e.region)).Nodup ∧
    (∀ name, (∃ e ∈ computeRegionFrequency sessions, e.region = name) ↔
      0 < occCount sessions name) ∧
    (∀ e ∈ computeRegionFrequency sessions,
      0 < occCount sessions e.region ∧
      e.count = occCount sessions e.region ∧
      e.avgIntensity =
        ((jsRound (occTotal sessions e.region / (occCount sessions e.region : ℚ) * 10) :
          ℤ) : ℚ) / 10) ∧
    (computeRegionFrequency sessions).Pairwise (fun a b => b.count ≤ a.count) ∧
    computeRegionFrequency [] = [] := by
  have hperm : List.Perm (computeRegionFrequency sessions)
      ((regionMapOf sessions).map freqEntry) := sortCountDesc_perm _
  have hnd := regionMapOf_keys_nodup sessions
  have hentry : ∀ p ∈ regionMapOf sessions,
      0 < occCount sessions p.1 ∧
      p.2.1 = occCount sessions p.1 ∧ p.2.2 = occTotal sessions p.1 := by
    intro p hp
    obtain ⟨k, c, tot⟩ := p
    have hsome := mapGet_of_mem _ _ _ hnd hp
    rw [mapGet_regionMapOf sessions k] at hsome
    by_cases h0 : occCount sessions k = 0
    · rw [if_pos h0] at hsome
      exact absurd hsome (by simp)
    · rw [if_neg h0] at hsome
      injection hsome with hv
      injection hv with h1 h2
      exact ⟨Nat.pos_of_ne_zero h0, h1.symm, h2.symm⟩
  have hrow : ∀ e ∈ (regionMapOf sessions).map freqEntry,
      0 < occCount sessions e.region ∧
      e.count = occCount sessions e.region ∧
      e.avgIntensity =
        ((jsRound (occTotal sessions e.region / (occCount sessions e.region : ℚ) * 10) :
          ℤ) : ℚ) / 10 := by
    intro e he
    obtain ⟨p, hp, hfp⟩ := List.mem_map.mp he
    obtain ⟨k, c, tot⟩ := p
    obtain ⟨hocc, hc, htot⟩ := hentry (k, c, tot) hp
    subst hfp
    have hocc' : 0 < occCount sessions k := hocc
    have hc' : c = occCount sessions k := hc
    have htot' : tot = occTotal sessions k := htot
    have hregion : (freqEntry (k, c, tot)).region = k := rfl
    have hocc_c : 0 < c := lt_of_lt_of_eq hocc' hc'.symm
    rw [hregion]
    refine ⟨hocc', hc', ?_⟩
    show (if 0 < c then
        qmul ((jsRound (qmul (qmul tot (mkRat 1 c)) 10) : ℤ) : ℚ) (mkRat 1 10)
      else 0) = _
    rw [if_pos hocc_c]
    have h1 : qmul (qmul tot (mkRat 1 c)) 10 = tot / (c : ℚ) * 10 := by
      rw [qmul_eq, qmul_eq, Rat.mkRat_eq_div]
      push_cast
      ring
    have h2 : ∀ X : ℚ, qmul X (mkRat 1 10) = X / 10 := by
      intro X
      rw [qmul_eq, Rat.mkRat_eq_div]
      push_cast
      ring
    rw [h2, h1, ← hc', ← htot']
  have hnodup : ((computeRegionFrequency sessions).map (fun e => e.region)).Nodup := by
    have hmapkeys : ((regionMapOf sessions).map freqEntry).map (fun e => e.region) =
        (regionMapOf sessions).map Prod.fst := by
      rw [List.map_map]
      exact List.map_congr_left (fun p _ => rfl)
    have hp2 : List.Perm ((computeRegionFrequency sessions).map (fun e => e.region))
        (((regionMapOf sessions).map freqEntry).map (fun e => e.region)) :=
      hperm.map _
    rw [hmapkeys] at hp2
    exact hp2.nodup_iff.mpr hnd
  refine ⟨hnodup, ?_, ?_, sortCountDesc_sorted _, rfl⟩
  · intro name
    constructor
    · rintro ⟨e, he, hename⟩
      have h1 := (hrow e (hperm.mem_iff.mp he)).1
      rw [hename] at h1
      exact h1
    · intro h0
      have hsome : mapGet (regionMapOf sessions) name =
          some (occCount sessions name, occTotal sessions name) := by
        rw [mapGet_regionMapOf sessions name, if_neg (Nat.pos_iff_ne_zero.mp h0)]
      have hp := mem_of_mapGet _ _ _ hsome
      exact ⟨freqEntry (name, occCount sessions name, occTotal sessions name),
        hperm.mem_iff.mpr (List.mem_map.mpr ⟨_, hp, rfl⟩), rfl⟩
  · intro e he
    exact hrow e (hperm.mem_iff.mp he)

/-- Two concrete sessions used to witness C9: Forehead logged twice with
intensities 5 and 6 (mean 5.5), Neck base once with intensity 7. -/
def sampleSessions : List MigraineSession :=
  [⟨"s1", "u1", "t0", "t1", "n1", [⟨"Forehead", 5⟩, ⟨"Neck base", 7⟩]⟩,
   ⟨"s2", "u1", "t0", "t1", "n2", [⟨"Forehead", 6⟩]⟩]

/-- Witness for C9 on `sampleSessions`: the Forehead row is present with
count 2 and avgIntensity 5.5, and the name "Forehead" does occur. -/
theorem computeRegionFrequency_spec_witness :
    ((⟨"Forehead", 2, mkRat 11 2⟩ : RegionFrequency) ∈
      computeRegionFrequency sampleSessions) ∧
    (0 < occCount sampleSessions "Forehead" ∧
      (⟨"Forehead", 2, mkRat 11 2⟩ : RegionFrequency).count =
        occCount sampleSessions "Forehead" ∧
      (⟨"Forehead", 2, mkRat 11 2⟩ : RegionFrequency).avgIntensity =
        ((jsRound (occTotal sampleSessions "Forehead" /
            (occCount sampleSessions "Forehead" : ℚ) * 10) : ℤ) : ℚ) / 10) ∧
    ((∃ e ∈ computeRegionFrequency sampleSessions, e.region = "Forehead") ↔
      0 < occCount sampleSessions "Forehead") :=
  ⟨by decide,
    (computeRegionFrequency_spec sampleSessions).2.2.1
      ⟨"Forehead", 2, mkRat 11 2⟩ (by decide),
    (computeRegionFrequency_spec sampleSessions).2.1 "Forehead"⟩
